import Mathlib

/-!
Verification development for the xwcli argument framework
(schema compiler, sigil grammar, command-tree resolver).

The TypeScript source chains JavaScript regular-expression replacements;
each regex is transliterated here as an executable scanner over List Char,
with the JS engine's leftmost-match and greedy/backtracking behaviour
reproduced explicitly.  JS strings are modelled as Lean String / List Char
(one Char per code point; all inputs of interest are BMP text, where
String.prototype.codePointAt indices agree with character indices).
-/

namespace Xwcli

/-- JS regex line terminators: the dot character class in a regex without
the s flag matches anything except a line terminator. -/
def isNL (c : Char) : Bool := c == '\n' || c == '\r'

/-- Split a list around the LAST occurrence of a character:
lastSplitOn a l = some (pre, post) iff l = pre ++ a :: post and a is not in post.
Used to reproduce greedy matching up to the last closing delimiter. -/
def lastSplitOn (a : Char) : List Char → Option (List Char × List Char)
  | [] => none
  | c :: rest =>
    match lastSplitOn a rest with
    | some (pre, post) => some (c :: pre, post)
    | none => if c = a then some ([], rest) else none

/-- Source function `removeHint` behaviour: the replacement
val.replace of the pattern angle-open dot-star angle-close by the empty
string (first match only).  The JS engine matches at the first opening
angle bracket, and the greedy dot-star extends to the last closing angle
bracket reachable without crossing a line terminator. -/
def removeHint : List Char → List Char
  | [] => []
  | ch :: rest =>
    if ch = '<' then
      match lastSplitOn '>' (rest.takeWhile (fun c => !isNL c)) with
      | some (_, post) => post ++ rest.dropWhile (fun c => !isNL c)
      | none => ch :: removeHint rest
    else ch :: removeHint rest

/-- Fuelled scanner for the global greedy bracket replacement of
`cleanArg`: inside every square-bracket group, each pipe character becomes
a hash.  Matches of the bracket pattern run from an opening bracket to the
last closing bracket on the same line; the global flag resumes scanning
after each match.  Every step consumes at least one character, so fuel
equal to the input length (supplied by `escInBrackets`) is always enough;
the fuel only makes the recursion structural. -/
def escGo : Nat → List Char → List Char
  | 0, cs => cs
  | Nat.succ fuel, cs =>
    match cs with
    | [] => []
    | ch :: rest =>
      if ch = '[' then
        match lastSplitOn ']' (rest.takeWhile (fun c => !isNL c)) with
        | some (pre, post) =>
          '[' :: (pre.map (fun c => if c = '|' then '#' else c)) ++ ']' ::
            escGo fuel (post ++ rest.dropWhile (fun c => !isNL c))
        | none => ch :: escGo fuel rest
      else ch :: escGo fuel rest

/-- The bracket-escape replacement step of `cleanArg`. -/
def escInBrackets (cs : List Char) : List Char := escGo cs.length cs

/-- Source step: strip from a pipe character to the end of the string
(pattern pipe dot-plus end-anchor, first match).  A pipe starts the match
only when at least one character follows and no line terminator occurs
afterwards (dot cannot cross a line terminator and the anchor is the very
end of the input); otherwise the engine retries at a later pipe. -/
def stripTypeSuffix : List Char → List Char
  | [] => []
  | c :: rest =>
    if c = '|' && !rest.isEmpty && rest.all (fun x => !isNL x) then []
    else c :: stripTypeSuffix rest

/-- Source step: plain-string replace of the first hash by a pipe
(String.prototype.replace with a string pattern touches only the first
occurrence). -/
def restoreFirstHash : List Char → List Char
  | [] => []
  | c :: rest => if c = '#' then '|' :: rest else c :: restoreFirstHash rest

/-- Source step: strip one leading type sigil, an exclamation mark, a run
of exactly three dots, or a dash (anchored alternation in that order). -/
def stripSigil (cs : List Char) : List Char :=
  match cs with
  | [] => []
  | c :: rest =>
    if c = '!' then rest
    else if c = '.' then
      match rest with
      | '.' :: '.' :: r => r
      | _ => c :: rest
    else if c = '-' then rest
    else c :: rest

/-- JS String.prototype.trim, restricted to the ASCII whitespace that the
repository's flag strings can contain. -/
def trimL (cs : List Char) : List Char :=
  ((cs.dropWhile Char.isWhitespace).reverse.dropWhile Char.isWhitespace).reverse

/-- Source function `cleanArg`: remove the angle-bracket hint, escape pipes
inside square-bracket groups, strip the pipe type suffix, restore the first
escaped pipe, strip a leading sigil, and trim. -/
def cleanArg (val : String) : String :=
  ⟨trimL (stripSigil (restoreFirstHash (stripTypeSuffix (escInBrackets (removeHint val.data)))))⟩

/-- Source function `parseByChar` core: the pattern built as open-symbol,
then a greedy any-character class, then close-symbol, matched once.  The
engine anchors at the first occurrence of the opening symbol that has a
later closing symbol and captures greedily up to the LAST closing symbol
(the any-character class also crosses line terminators). -/
def parseByCharL (o c : Char) : List Char → List Char
  | [] => []
  | ch :: rest =>
    if ch = o then
      match lastSplitOn c rest with
      | some (pre, _) => pre
      | none => parseByCharL o c rest
    else parseByCharL o c rest

/-- Source function `parseByChar`: extract the text of an angle-bracket
hint, with the boundary symbols defaulting to angle brackets, and the
empty string when the pattern does not match. -/
def parseByChar (val : String) (o : Char := '<') (c : Char := '>') : String :=
  ⟨parseByCharL o c val.data⟩

/-- Lookahead of the comma-splitting regex of `splitFlag`: the negative
lookahead succeeds on a class of non-open-angle characters followed by a
closing angle bracket, i.e. it fires exactly when a closing angle bracket
occurs before any opening angle bracket in the remainder. -/
def lookGt : List Char → Bool
  | [] => false
  | c :: rest => if c = '>' then true else if c = '<' then false else lookGt rest

/-- The comma split of `splitFlag`: String.prototype.split on a comma
that is not followed by the lookahead above.  A JS split never produces
an empty array; empty segments are preserved. -/
def splitCommas : List Char → List (List Char)
  | [] => [[]]
  | c :: rest =>
    if c = ',' && !lookGt rest then [] :: splitCommas rest
    else
      match splitCommas rest with
      | [] => [[c]]
      | h :: t => (c :: h) :: t

/-- First step of `splitFlag`: remove the first square-bracket group
(pattern open-bracket, greedy dot-plus, close-bracket; first match only).
The content must be nonempty, and greediness reaches the last closing
bracket on the line; when the only closing bracket directly follows the
opening one the engine finds no match at that position and rescans. -/
def removeBracketGroup : List Char → List Char
  | [] => []
  | ch :: rest =>
    if ch = '[' then
      match lastSplitOn ']' (rest.takeWhile (fun c => !isNL c)) with
      | some (pre, post) =>
        if pre.isEmpty then ch :: removeBracketGroup rest
        else post ++ rest.dropWhile (fun c => !isNL c)
      | none => ch :: removeBracketGroup rest
    else ch :: removeBracketGroup rest

/-- Source function `splitFlag`: drop the first square-bracket group,
split on commas outside angle-bracket hints, and trim every segment. -/
def splitFlag (val : String) : List String :=
  (splitCommas (removeBracketGroup val.data)).map (fun cs => (⟨trimL cs⟩ : String))

/-- The four value types of the compact grammar. -/
inductive OptionalType where
  | string
  | boolean
  | number
  | array
deriving DecidableEq, Repr, Fintype

/-- Source function `parseType`: the switch on the first character of the
hint-stripped token, paired with the cleaned name. -/
def parseType (value : String) : OptionalType × String :=
  let t : OptionalType :=
    match (removeHint value.data).head? with
    | some c =>
      if c = '-' then .number
      else if c = '!' then .boolean
      else if c = '.' then .array
      else .string
    | none => .string
  (t, cleanArg value)

/-- Source function `isFlag`: the first code point is a dash. -/
def isFlag (s : String) : Bool := s.data.head? == some '-'

/-- Source function `isShortFlag`: a flag whose second code point is not a
dash (a missing second code point compares unequal, as undefined does). -/
def isShortFlag (s : String) : Bool := isFlag s && !(s.data[1]? == some '-')

/-- Source function `isLongFlag`: a flag whose second code point is a dash. -/
def isLongFlag (s : String) : Bool := isFlag s && (s.data[1]? == some '-')

/-- CSI parameter and intermediate bytes. -/
def isCSIParam (c : Char) : Bool := 0x20 ≤ c.toNat && c.toNat ≤ 0x3F

/-- Models the external strip-ansi dependency, which the source applies
before parsing: removes control-sequence-introducer escapes (ESC, an open
bracket, parameter bytes, one final byte).  The npm package's regex also
covers other escape families that the repository's styling (picocolors
SGR sequences) never produces. -/
def stripAnsiAux : Bool → List Char → List Char
  | _, [] => []
  | true, c :: rest =>
    if isCSIParam c then stripAnsiAux true rest else stripAnsiAux false rest
  | false, '\x1b' :: '[' :: r2 => stripAnsiAux true r2
  | false, c :: rest => c :: stripAnsiAux false rest

/-- Strip-ansi model on character lists (inCSI mode initially off). -/
def stripAnsiL (cs : List Char) : List Char := stripAnsiAux false cs

/-- String wrapper for the strip-ansi model. -/
def stripAnsiS (s : String) : String := ⟨stripAnsiL s.data⟩

/-- The default values the source's DefaultValue union admits
(a string, a boolean, a number, or an array of strings). -/
inductive DefaultValue where
  | ofString (s : String)
  | ofBool (b : Bool)
  | ofNum (n : Int)
  | ofList (l : List String)
deriving DecidableEq, Repr

/-- One args entry: a flags string, a description, and an optional default
value (the source's two- or three-element tuples). -/
structure Arg where
  flags : String
  description : String
  defaultValue : Option DefaultValue := none
deriving DecidableEq, Repr

/-- JS object models: assignment obj key value replaces the value of an
existing key in place, otherwise appends a new entry. -/
def setA {β : Type} : List (String × β) → String → β → List (String × β)
  | [], k, v => [(k, v)]
  | (k', v') :: rest, k, v =>
    if k' = k then (k, v) :: rest else (k', v') :: setA rest k v

/-- JS object property read. -/
def lookupA {β : Type} : List (String × β) → String → Option β
  | [], _ => none
  | (k', v') :: rest, k => if k' = k then some v' else lookupA rest k

/-- The accumulated option schema (the source's CmdOptions object).  The
lazily created JS properties (the type buckets, alias, default) are
modelled as initially empty collections, which the lazy
create-or-push/assign logic cannot distinguish from absent ones. -/
structure CmdOptions where
  string : List String := []
  boolean : List String := []
  number : List String := []
  array : List String := []
  aliases : List (String × List String) := []
  description : List (String × String) := []
  hints : List (String × String) := []
  default : List (String × DefaultValue) := []
  required : List String := []
deriving DecidableEq, Repr

/-- The dynamically computed bucket read options bracket type of the source. -/
def bucket (o : CmdOptions) : OptionalType → List String
  | .string => o.string
  | .boolean => o.boolean
  | .number => o.number
  | .array => o.array

/-- The dynamically computed bucket write of the source. -/
def bucketSet (o : CmdOptions) (t : OptionalType) (names : List String) : CmdOptions :=
  match t with
  | .string => { o with string := names }
  | .boolean => { o with boolean := names }
  | .number => { o with number := names }
  | .array => { o with array := names }

/-- JS String.prototype.endsWith with a one-character suffix, on the
character list (String.endsWith of core Lean uses byte positions, which
do not reduce inside the kernel). -/
def endsWithBang (s : String) : Bool := s.data.getLast? == some '!'

/-- JS val.slice(0, -1): drop the last character. -/
def dropLastChar (s : String) : String := ⟨s.data.dropLast⟩

/-- Source function `argsHandle`: compile one flag entry into the schema.
The comma segments are split; every segment but the last is cleaned into
an alias; the last (canonical) segment is typed, stripped of a trailing
required marker, appended to its type bucket, and keyed into the alias,
default, description and hint maps. -/
def argsHandle (arg : Arg) (options : CmdOptions) : CmdOptions :=
  match (splitFlag arg.flags).getLast? with
  | none => options
  | some fl =>
    let aliasL := ((splitFlag arg.flags).dropLast).map (fun f => cleanArg (stripAnsiS f))
    let draftFlag := stripAnsiS fl
    let tv := parseType draftFlag
    let val := if endsWithBang tv.2 then dropLastChar tv.2 else tv.2
    let o1 := bucketSet options tv.1 (bucket options tv.1 ++ [val])
    { o1 with
      required := if endsWithBang tv.2 then options.required ++ [val] else options.required
      aliases := setA options.aliases val aliasL
      default :=
        match arg.defaultValue with
        | some d => setA options.default val d
        | none => options.default
      description := setA options.description val arg.description
      hints := setA options.hints val (parseByChar draftFlag) }

/-- Source function `parseCliArgs`: fold every entry through `argsHandle`
starting from the fresh schema (an empty entry list returns it as is). -/
def parseCliArgs (args : List Arg) : CmdOptions :=
  args.foldl (fun o a => argsHandle a o) {}

/-- The canonical name `argsHandle` stores for a flags string: the cleaned
last comma segment with a trailing required marker removed. -/
def canonVal (flags : String) : String :=
  match (splitFlag flags).getLast? with
  | none => ""
  | some fl =>
    let v := (parseType (stripAnsiS fl)).2
    if endsWithBang v then dropLastChar v else v

/-- The resolved type `argsHandle` buckets a flags string under. -/
def canonType (flags : String) : OptionalType :=
  match (splitFlag flags).getLast? with
  | none => .string
  | some fl => (parseType (stripAnsiS fl)).1

/-- The alias list `argsHandle` collects for a flags string: all comma
segments before the last one, cleaned. -/
def aliasOf (flags : String) : List String :=
  ((splitFlag flags).dropLast).map (fun f => cleanArg (stripAnsiS f))

/-- The definition error raised by the source (class XWCMDError). -/
structure XWCMDError where
  message : String
deriving DecidableEq, Repr

/-- A raw entry as `formatArgs` receives it: the first slot may fail the
runtime string check of the source; the remaining tuple slots are carried
through verbatim. -/
inductive FlagsField where
  | str (s : String)
  | notStr
deriving DecidableEq, Repr

/-- An entry passed to `formatArgs`. -/
structure RawArg where
  flags : FlagsField
  rest : List DefaultValue := []
deriving DecidableEq, Repr

/-- One row of `formatArgs` output: joined aliases, canonical name, hint,
type, and the forwarded remaining tuple slots. -/
structure FormatArg where
  aliases : String
  val : String
  hint : String
  type : OptionalType
  rest : List DefaultValue
deriving DecidableEq, Repr

instance {ε α : Type} [DecidableEq ε] [DecidableEq α] : DecidableEq (Except ε α) := fun x y =>
  match x, y with
  | .ok a, .ok b =>
    if h : a = b then .isTrue (by rw [h]) else .isFalse (fun hc => h (Except.ok.inj hc))
  | .error a, .error b =>
    if h : a = b then .isTrue (by rw [h]) else .isFalse (fun hc => h (Except.error.inj hc))
  | .ok _, .error _ => .isFalse (fun hc => Except.noConfusion hc)
  | .error _, .ok _ => .isFalse (fun hc => Except.noConfusion hc)

/-- Source function `formatArgs`: split every entry into aliases, name,
hint and type, raising a definition error on a non-string flags field and
a missing-flag error when the split produces no last segment. -/
def formatArgs (args : List RawArg) : Except XWCMDError (List FormatArg) :=
  args.mapM (fun arg =>
    match arg.flags with
    | .notStr => .error ⟨"The args definition error."⟩
    | .str flags =>
      let aliasArr := splitFlag flags
      match aliasArr.getLast? with
      | none => .error ⟨"The args missing flag!"⟩
      | some flag =>
        let tv := parseType (stripAnsiS flag)
        .ok ⟨String.intercalate "," aliasArr.dropLast, tv.2, parseByChar flag, tv.1, arg.rest⟩)

/-- Source function `checkRequired`: scans the tokens for any registered
alias key but discards the result; the error branch is commented out in
the source, so the function can only return successfully (and, being
pure here as there, leaves schema and tokens untouched). -/
def checkRequired (options : CmdOptions) (args : List String) : Except XWCMDError Unit :=
  let _matched := args.any (fun a => (lookupA options.aliases a).isSome)
  Except.ok ()

/-- The name and alias list of a command node (the meta object fields the
resolver consults). -/
structure CmdMeta where
  name : String
  aliasList : List String := []
deriving DecidableEq, Repr

mutual
/-- A command node: meta data plus sub-commands (field subs in the source). -/
inductive Command where
  | mk (meta : CmdMeta) (subs : CommandList)

/-- A sequence of command nodes (the source's arrays of sub-commands),
spelled as its own inductive so that recursion over the tree stays
structural and computes inside the kernel. -/
inductive CommandList where
  | nil
  | cons (head : Command) (tail : CommandList)
end

/-- Meta projection. -/
def Command.meta : Command → CmdMeta
  | .mk m _ => m

/-- Sub-command projection. -/
def Command.subs : Command → CommandList
  | .mk _ s => s

/-- Source function `matchSubCmd`: the token equals the color-stripped
name or one of the color-stripped aliases of the node. -/
def matchSubCmd (meta : CmdMeta) (currentCmd : String) : Bool :=
  (meta.aliasList ++ [meta.name]).any (fun n => stripAnsiS n == currentCmd)

/-- The Array.prototype.some loop inside `traverseToCall`, with the shared
mutable argv array threaded explicitly: every visited node pushes its name
before being tested, a matching node stops the loop, and a failed subtree
leaves its pushed names in place. -/
def traverseSome (name : String) : CommandList → List String → List String × Bool
  | .nil, argv => (argv, false)
  | .cons (Command.mk m subs) rest, argv =>
    let argv1 := argv ++ [m.name]
    if matchSubCmd m name then (argv1, true)
    else
      match traverseSome name subs argv1 with
      | (argv2, true) => (argv2, true)
      | (argv2, false) => traverseSome name rest argv2

/-- Source function `traverseToCall`: false (here none) when nothing in
the tree matches, otherwise the accumulated argv array. -/
def traverseToCall (name : String) (subCmds : CommandList) (argv : List String := []) :
    Option (List String) :=
  match traverseSome name subCmds argv with
  | (a, true) => some a
  | (_, false) => none

/-! Spec-side definitions.  Each is written from the words of a claim (or
of its amendment), to be compared with the source transliterations above. -/

/-- Modelled from the spec: the substring strictly between the FIRST
matching pair of boundary symbols, i.e. from the first opening symbol that
has a later closing symbol up to the first such closing symbol. -/
def betweenFirstPair (o c : Char) : List Char → List Char
  | [] => []
  | ch :: rest =>
    if ch = o ∧ c ∈ rest then rest.takeWhile (fun x => x ≠ c)
    else betweenFirstPair o c rest

/-- Modelled from the spec: split on EVERY comma (claim C2's reading for
strings without hints or bracket groups). -/
def splitAllCommas : List Char → List (List Char)
  | [] => [[]]
  | c :: rest =>
    if c = ',' then [] :: splitAllCommas rest
    else
      match splitAllCommas rest with
      | [] => [[c]]
      | h :: t => (c :: h) :: t

/-- Modelled from the spec: the sigil-to-type table, checked on the first
character of the hint-stripped token; anything else, including the empty
token, is a string. -/
def sigilType (c? : Option Char) : OptionalType :=
  match c? with
  | none => .string
  | some c =>
    if c = '-' then .number
    else if c = '!' then .boolean
    else if c = '.' then .array
    else .string

/-- The names of a command forest in depth-first pre-order (the order in
which `traverseToCall` pushes them). -/
def preNames : CommandList → List String
  | .nil => []
  | .cons (Command.mk m subs) rest => m.name :: (preNames subs ++ preNames rest)

/-- The names visited by a depth-first search up to and including the
first matching node, or none when nothing matches. -/
def pathUpTo (name : String) : CommandList → Option (List String)
  | .nil => none
  | .cons (Command.mk m subs) rest =>
    if matchSubCmd m name then some [m.name]
    else
      match pathUpTo name subs with
      | some l => some (m.name :: l)
      | none =>
        match pathUpTo name rest with
        | some l => some (m.name :: (preNames subs ++ l))
        | none => none

/-- Whether any node of the forest matches the token. -/
def existsMatchF (name : String) : CommandList → Bool
  | .nil => false
  | .cons (Command.mk m subs) rest =>
    matchSubCmd m name || existsMatchF name subs || existsMatchF name rest

/-! Theorems: helper lemmas and the claim theorems. -/

theorem lastSplitOn_eq_none {a : Char} : ∀ {l : List Char}, a ∉ l → lastSplitOn a l = none
  | [], _ => rfl
  | c :: rest, h => by
    have hc : ¬ c = a := fun hca => h (hca ▸ List.mem_cons_self c rest)
    have hr : a ∉ rest := fun hm => h (List.mem_cons_of_mem c hm)
    simp [lastSplitOn, lastSplitOn_eq_none hr, hc]

theorem lastSplitOn_append {a : Char} :
    ∀ (pre post : List Char), a ∉ post →
      lastSplitOn a (pre ++ a :: post) = some (pre, post)
  | [], post, h => by simp [lastSplitOn, lastSplitOn_eq_none h]
  | c :: pre, post, h => by
    have ih := lastSplitOn_append pre post h
    simp only [List.cons_append, lastSplitOn, List.append_eq, ih]

theorem removeHint_id : ∀ {cs : List Char}, '<' ∉ cs → removeHint cs = cs
  | [], _ => rfl
  | c :: rest, h => by
    have hc : ¬ c = '<' := fun hce => h (hce ▸ List.mem_cons_self c rest)
    have hr : '<' ∉ rest := fun hm => h (List.mem_cons_of_mem c hm)
    simp [removeHint, hc, removeHint_id hr]

theorem escGo_id : ∀ (fuel : Nat) {cs : List Char}, '[' ∉ cs → escGo fuel cs = cs
  | 0, _, _ => rfl
  | Nat.succ fuel, [], _ => rfl
  | Nat.succ fuel, c :: rest, h => by
    have hc : ¬ c = '[' := fun hce => h (hce ▸ List.mem_cons_self c rest)
    have hr : '[' ∉ rest := fun hm => h (List.mem_cons_of_mem c hm)
    simp [escGo, hc, escGo_id fuel hr]

theorem escInBrackets_id {cs : List Char} (h : '[' ∉ cs) : escInBrackets cs = cs :=
  escGo_id cs.length h

theorem stripTypeSuffix_no_pipe : ∀ {cs : List Char}, '|' ∉ cs → stripTypeSuffix cs = cs
  | [], _ => rfl
  | c :: rest, h => by
    have hc : ¬ c = '|' := fun hce => h (hce ▸ List.mem_cons_self c rest)
    have hr : '|' ∉ rest := fun hm => h (List.mem_cons_of_mem c hm)
    simp [stripTypeSuffix, hc, stripTypeSuffix_no_pipe hr]

theorem restoreFirstHash_id : ∀ {cs : List Char}, '#' ∉ cs → restoreFirstHash cs = cs
  | [], _ => rfl
  | c :: rest, h => by
    have hc : ¬ c = '#' := fun hce => h (hce ▸ List.mem_cons_self c rest)
    have hr : '#' ∉ rest := fun hm => h (List.mem_cons_of_mem c hm)
    simp [restoreFirstHash, hc, restoreFirstHash_id hr]

theorem lookGt_of_no_gt : ∀ {cs : List Char}, '>' ∉ cs → lookGt cs = false
  | [], _ => rfl
  | c :: rest, h => by
    have hc : ¬ c = '>' := fun hce => h (hce ▸ List.mem_cons_self c rest)
    have hr : '>' ∉ rest := fun hm => h (List.mem_cons_of_mem c hm)
    simp [lookGt, hc, lookGt_of_no_gt hr]

theorem splitCommas_ne_nil : ∀ (cs : List Char), splitCommas cs ≠ []
  | [] => by simp [splitCommas]
  | c :: rest => by
    have := splitCommas_ne_nil rest
    simp only [splitCommas]
    by_cases hc : (c = ',' && !lookGt rest) = true
    · simp [hc]
    · simp only [hc]
      cases splitCommas rest <;> simp

theorem removeBracketGroup_id : ∀ {cs : List Char}, '[' ∉ cs → removeBracketGroup cs = cs
  | [], _ => rfl
  | c :: rest, h => by
    have hc : ¬ c = '[' := fun hce => h (hce ▸ List.mem_cons_self c rest)
    have hr : '[' ∉ rest := fun hm => h (List.mem_cons_of_mem c hm)
    simp [removeBracketGroup, hc, removeBracketGroup_id hr]

theorem splitFlag_ne_nil (val : String) : splitFlag val ≠ [] := by
  unfold splitFlag
  intro h
  exact splitCommas_ne_nil (removeBracketGroup val.data) (List.map_eq_nil_iff.mp h)

theorem lookupA_setA_self {β : Type} : ∀ (l : List (String × β)) (k : String) (v : β),
    lookupA (setA l k v) k = some v
  | [], k, v => by simp [setA, lookupA]
  | (k', v') :: rest, k, v => by
    by_cases h : k' = k
    · simp [setA, lookupA, h]
    · simp [setA, lookupA, h, lookupA_setA_self rest k v]

theorem keys_setA_fresh {β : Type} : ∀ (l : List (String × β)) (k : String) (v : β),
    k ∉ l.map Prod.fst → (setA l k v).map Prod.fst = l.map Prod.fst ++ [k]
  | [], k, v, _ => by simp [setA]
  | (k', v') :: rest, k, v, h => by
    have hk : ¬ k' = k := by
      intro he
      exact h (he ▸ List.mem_cons_self k' (rest.map Prod.fst))
    have hr : k ∉ rest.map Prod.fst := by
      intro hm
      exact h (List.mem_cons_of_mem k' hm)
    simp [setA, hk, keys_setA_fresh rest k v hr]

theorem bucket_bucketSet (o : CmdOptions) (t t' : OptionalType) (ns : List String) :
    bucket (bucketSet o t ns) t' = if t' = t then ns else bucket o t' := by
  cases t <;> cases t' <;> simp [bucket, bucketSet]

theorem bucketSet_alias (o : CmdOptions) (t : OptionalType) (ns : List String) :
    (bucketSet o t ns).aliases = o.aliases := by cases t <;> rfl

theorem bucketSet_default (o : CmdOptions) (t : OptionalType) (ns : List String) :
    (bucketSet o t ns).default = o.default := by cases t <;> rfl

theorem bucketSet_required (o : CmdOptions) (t : OptionalType) (ns : List String) :
    (bucketSet o t ns).required = o.required := by cases t <;> rfl

/-! Claim theorems. -/

/-- C10: for every string whose first character is a dash, exactly one of
isShortFlag and isLongFlag is true; the bare dash counts as a short flag
and the bare double dash as a long flag, so neither is excluded by the
grammar itself. -/
theorem flag_classification (s : String) (h : isFlag s = true) :
    (isShortFlag s = !isLongFlag s) ∧ isShortFlag "-" = true ∧ isLongFlag "--" = true := by
  refine ⟨?_, by decide, by decide⟩
  unfold isShortFlag isLongFlag
  rw [h]
  simp

/-- Witness for C10 at a concrete short flag. -/
theorem flag_classification_witness : isShortFlag "-f" = !isLongFlag "-f" :=
  (flag_classification "-f" (by decide)).1

/-- C8: checkRequired returns successfully for every schema and every
token sequence, even when required canonical names are absent from the
tokens; the commented-out error branch of the source never fires, and the
pure embedding leaves schema and tokens untouched by construction. -/
theorem checkRequired_never_raises (options : CmdOptions) (args : List String) :
    checkRequired options args = Except.ok () := rfl

/-- C3: the type computed by parseType is the sigil table applied to the
first character remaining after hint removal (dash to number, exclamation
mark to boolean, dot to array, anything else including the empty token to
string); on hint-free tokens this is the table on the raw first character. -/
theorem parseType_sigil_mapping (value : String) :
    (parseType value).1 = sigilType (removeHint value.data).head? ∧
    ('<' ∉ value.data → (parseType value).1 = sigilType value.data.head?) := by
  have h1 : (parseType value).1 = sigilType (removeHint value.data).head? := by
    unfold parseType sigilType
    cases (removeHint value.data).head? <;> simp
  exact ⟨h1, fun h => by rw [h1, removeHint_id h]⟩

/-- Witness for C3 on a hint-free boolean-sigil token. -/
theorem parseType_sigil_mapping_witness :
    (parseType "!recursive").1 = sigilType "!recursive".data.head? :=
  (parseType_sigil_mapping "!recursive").2 (by decide)

/-- C5 (code evaluated at the failing input): an entry whose flags string
is empty (hence has no canonical name) compiles WITHOUT a definition
error, producing a descriptor with an empty canonical name; only the
non-string flags check fires.  The missing-flag error branch of the
source is unreachable because a JS split never yields an empty array. -/
theorem formatArgs_empty_flags_no_error :
    formatArgs [⟨.str "", []⟩] = .ok [⟨"", "", "", .string, []⟩] ∧
    formatArgs [⟨.notStr, []⟩] = .error ⟨"The args definition error."⟩ := by
  decide

/-- C1 counterexample: the claim says the schema records an entry mapping
each alias to the canonical name; the source instead records one entry
keyed by the CANONICAL name holding the alias list, so looking up the
alias finds nothing. -/
theorem argsHandle_alias_direction_counterexample :
    lookupA (argsHandle ⟨"f,file", "d", none⟩ {}).aliases "f" = none ∧
    lookupA (argsHandle ⟨"f,file", "d", none⟩ {}).aliases "file" = some ["f"] := by
  decide

/-- C2 counterexample: splitFlag first deletes the bracket group and a
comma followed by a closing angle bracket never splits even outside a
hint, so the output differs from a plain comma split respecting only
angle-bracket hints. -/
theorem splitFlag_counterexample :
    splitFlag "a[b,c],d>e" = ["a,d>e"] ∧ splitFlag "a[b,c],d>e" ≠ ["a[b", "c]", "d>e"] := by
  decide

/-- C4 counterexample: two entries with the same canonical name but
different sigils place that name in two different type buckets, so the
claimed invariant fails without a distinctness precondition on the
entry list. -/
theorem parseCliArgs_duplicate_counterexample :
    "a" ∈ bucket (parseCliArgs [⟨"a", "d", none⟩, ⟨"!a", "d", none⟩]) OptionalType.string ∧
    "a" ∈ bucket (parseCliArgs [⟨"a", "d", none⟩, ⟨"!a", "d", none⟩]) OptionalType.boolean := by
  decide

/-- C6 counterexample: with two pipes inside one bracket group, only the
FIRST escaped pipe is restored (the source restores with a plain string
replace), so the escaping round trip claimed by the spec fails. -/
theorem cleanArg_restore_counterexample :
    cleanArg "[a|b|c]" = "[a|b#c]" ∧ cleanArg "[a|b|c]" ≠ "[a|b|c]" := by
  decide

/-- C7 counterexample: the greedy regex captures up to the LAST closing
symbol, not the first matching pair. -/
theorem parseByChar_counterexample :
    parseByChar "<a>b>" = "a>b" ∧
    (⟨betweenFirstPair '<' '>' "<a>b>".data⟩ : String) = "a" ∧
    parseByChar "<a>b>" ≠ (⟨betweenFirstPair '<' '>' "<a>b>".data⟩ : String) := by
  decide

theorem parseByCharL_skip (o c : Char) :
    ∀ {pre rest : List Char}, o ∉ pre → parseByCharL o c (pre ++ rest) = parseByCharL o c rest
  | [], rest, _ => rfl
  | x :: pre, rest, h => by
    have hx : ¬ x = o := fun hce => h (hce ▸ List.mem_cons_self x pre)
    have hr : o ∉ pre := fun hm => h (List.mem_cons_of_mem x hm)
    simp [parseByCharL, hx, parseByCharL_skip o c hr]

theorem parseByCharL_no_close (o c : Char) :
    ∀ {cs : List Char}, c ∉ cs → parseByCharL o c cs = []
  | [], _ => rfl
  | x :: rest, h => by
    have hr : c ∉ rest := fun hm => h (List.mem_cons_of_mem x hm)
    by_cases hx : x = o
    · simp [parseByCharL, hx, lastSplitOn_eq_none hr, parseByCharL_no_close o c hr]
    · simp [parseByCharL, hx, parseByCharL_no_close o c hr]

/-- C7 (amended): parseByChar returns the substring between the first
opening symbol (one with a later closing symbol) and the LAST closing
symbol of the input, and the empty string when no closing symbol exists
at all. -/
theorem parseByChar_greedy_extraction (o c : Char) (pre mid suf : List Char)
    (h1 : o ∉ pre) (h2 : c ∉ suf) :
    parseByChar ⟨pre ++ (o :: (mid ++ (c :: suf)))⟩ o c = ⟨mid⟩ ∧
    (∀ cs : List Char, c ∉ cs → parseByCharL o c cs = []) := by
  refine ⟨?_, fun cs h => parseByCharL_no_close o c h⟩
  show (⟨parseByCharL o c (pre ++ (o :: (mid ++ (c :: suf))))⟩ : String) = ⟨mid⟩
  rw [parseByCharL_skip o c h1]
  simp [parseByCharL, lastSplitOn_append mid suf h2]

/-- Witness for C7 at a concrete hinted token. -/
theorem parseByChar_greedy_extraction_witness :
    parseByChar ⟨['x'] ++ ('<' :: (['a', 'b'] ++ ('>' :: ['y'])))⟩ = ⟨['a', 'b']⟩ :=
  (parseByChar_greedy_extraction '<' '>' ['x'] ['a', 'b'] ['y'] (by decide) (by decide)).1

theorem splitCommas_eq_splitAll : ∀ {cs : List Char}, '>' ∉ cs → splitCommas cs = splitAllCommas cs
  | [], _ => rfl
  | c :: rest, h => by
    have hr : '>' ∉ rest := fun hm => h (List.mem_cons_of_mem c hm)
    have ih := splitCommas_eq_splitAll hr
    by_cases hc : c = ','
    · simp [splitCommas, splitAllCommas, hc, lookGt_of_no_gt hr, ih]
    · simp [splitCommas, splitAllCommas, hc, ih]

/-- C2 (amended): on flags strings without square-bracket groups and
without closing angle brackets (so the bracket deletion and the lookahead
approximation cannot fire) splitFlag is exactly the plain comma split
with trimmed segments; commas inside angle-bracket hints are protected
because a closing angle bracket follows them. -/
theorem splitFlag_plain_split (flags : String)
    (h1 : '[' ∉ flags.data) (h2 : '>' ∉ flags.data) :
    splitFlag flags = (splitAllCommas flags.data).map (fun cs => (⟨trimL cs⟩ : String)) := by
  unfold splitFlag
  rw [removeBracketGroup_id h1, splitCommas_eq_splitAll h2]

/-- Witness for C2 on a concrete alias list. -/
theorem splitFlag_plain_split_witness :
    splitFlag "r, !recursive" =
      (splitAllCommas "r, !recursive".data).map (fun cs => (⟨trimL cs⟩ : String)) :=
  splitFlag_plain_split "r, !recursive" (by decide) (by decide)

theorem splitFlag_getLast_exists (flags : String) : ∃ fl, (splitFlag flags).getLast? = some fl := by
  cases h : (splitFlag flags).getLast? with
  | some fl => exact ⟨fl, rfl⟩
  | none => exact absurd (List.getLast?_eq_none_iff.mp h) (splitFlag_ne_nil flags)

theorem bucket_update (o : CmdOptions) (r : List String) (al : List (String × List String))
    (d : List (String × DefaultValue)) (ds hs : List (String × String)) (t : OptionalType) :
    bucket { o with required := r, aliases := al, default := d, description := ds, hints := hs } t
      = bucket o t := by
  cases t <;> rfl

theorem argsHandle_unfolded (arg : Arg) (options : CmdOptions) (fl : String)
    (hfl : (splitFlag arg.flags).getLast? = some fl) :
    argsHandle arg options =
      { bucketSet options (canonType arg.flags)
          (bucket options (canonType arg.flags) ++ [canonVal arg.flags]) with
        required :=
          if endsWithBang (parseType (stripAnsiS fl)).2 then
            options.required ++ [canonVal arg.flags]
          else options.required
        aliases := setA options.aliases (canonVal arg.flags) (aliasOf arg.flags)
        default :=
          match arg.defaultValue with
          | some d => setA options.default (canonVal arg.flags) d
          | none => options.default
        description := setA options.description (canonVal arg.flags) arg.description
        hints := setA options.hints (canonVal arg.flags) (parseByChar (stripAnsiS fl)) } := by
  unfold argsHandle canonType canonVal aliasOf
  rw [hfl]

/-- C1 (amended): for every compiled flag entry the canonical name from
the last comma segment is appended to the bucket of its resolved type
(other buckets unchanged), the alias map records ONE entry keyed by the
canonical name holding the ordered list of collected alias segments, and
a default value is recorded for the canonical name exactly when a third
tuple element is supplied. -/
theorem argsHandle_registration (arg : Arg) (options : CmdOptions) :
    bucket (argsHandle arg options) (canonType arg.flags)
        = bucket options (canonType arg.flags) ++ [canonVal arg.flags]
    ∧ (∀ t', t' ≠ canonType arg.flags →
        bucket (argsHandle arg options) t' = bucket options t')
    ∧ lookupA (argsHandle arg options).aliases (canonVal arg.flags) = some (aliasOf arg.flags)
    ∧ (∀ d, arg.defaultValue = some d →
        lookupA (argsHandle arg options).default (canonVal arg.flags) = some d)
    ∧ (arg.defaultValue = none → (argsHandle arg options).default = options.default) := by
  obtain ⟨fl, hfl⟩ := splitFlag_getLast_exists arg.flags
  rw [argsHandle_unfolded arg options fl hfl]
  refine ⟨?_, ?_, ?_, ?_, ?_⟩
  · rw [bucket_update, bucket_bucketSet]
    simp
  · intro t' ht'
    rw [bucket_update, bucket_bucketSet, if_neg ht']
  · exact lookupA_setA_self options.aliases (canonVal arg.flags) (aliasOf arg.flags)
  · intro d hd
    simp only [hd]
    exact lookupA_setA_self options.default (canonVal arg.flags) d
  · intro hd
    simp only [hd]

/-- Witness for C1 on a concrete aliased entry with a default value. -/
theorem argsHandle_registration_witness :
    bucket (argsHandle ⟨"f,file", "d", some (.ofString "x")⟩ {}) OptionalType.boolean = [] ∧
    lookupA (argsHandle ⟨"f,file", "d", some (.ofString "x")⟩ {}).aliases "file" = some ["f"] ∧
    lookupA (argsHandle ⟨"f,file", "d", some (.ofString "x")⟩ {}).default "file"
      = some (.ofString "x") := by
  have h := argsHandle_registration ⟨"f,file", "d", some (.ofString "x")⟩ {}
  refine ⟨?_, ?_, ?_⟩
  · have := h.2.1 OptionalType.boolean (by decide)
    simpa using this
  · have := h.2.2.1
    simpa using this
  · have := h.2.2.2.1 (.ofString "x") rfl
    simpa using this

theorem alnum_ne {c x : Char} (h : c.isAlphanum = true) (hx : x.isAlphanum = false) : c ≠ x := by
  intro he
  subst he
  rw [hx] at h
  exact Bool.noConfusion h

theorem not_mem_of_alnum {l : List Char} (hl : ∀ ch ∈ l, ch.isAlphanum = true) {x : Char}
    (hx : x.isAlphanum = false) : x ∉ l := by
  intro hm
  have := hl x hm
  rw [hx] at this
  exact Bool.noConfusion this

theorem alnum_not_ws {c : Char} (h : c.isAlphanum = true) : c.isWhitespace = false := by
  cases hb : c.isWhitespace with
  | false => rfl
  | true =>
    have hd := hb
    simp only [Char.isWhitespace, Bool.or_eq_true, decide_eq_true_eq] at hd
    rcases hd with ((h1 | h1) | h1) | h1 <;> subst h1 <;> exact absurd h (by decide)

theorem alnum_not_nl {c : Char} (h : c.isAlphanum = true) : isNL c = false := by
  have h1 : c ≠ '\n' := alnum_ne h (by decide)
  have h2 : c ≠ '\r' := alnum_ne h (by decide)
  simp [isNL, h1, h2]

theorem takeWhile_all {p : Char → Bool} : ∀ {l : List Char}, (∀ c ∈ l, p c = true) →
    l.takeWhile p = l
  | [], _ => rfl
  | c :: rest, h => by
    have hc := h c (List.mem_cons_self c rest)
    have hr : ∀ x ∈ rest, p x = true := fun x hx => h x (List.mem_cons_of_mem c hx)
    simp [List.takeWhile_cons, hc, takeWhile_all hr]

theorem dropWhile_all {p : Char → Bool} : ∀ {l : List Char}, (∀ c ∈ l, p c = true) →
    l.dropWhile p = []
  | [], _ => rfl
  | c :: rest, h => by
    have hc := h c (List.mem_cons_self c rest)
    have hr : ∀ x ∈ rest, p x = true := fun x hx => h x (List.mem_cons_of_mem c hx)
    simp [List.dropWhile_cons, hc, dropWhile_all hr]

theorem dropWhile_none {p : Char → Bool} : ∀ {l : List Char}, (∀ c ∈ l, p c = false) →
    l.dropWhile p = l
  | [], _ => rfl
  | c :: rest, h => by
    have hc := h c (List.mem_cons_self c rest)
    simp [List.dropWhile_cons, hc]

theorem trimL_id {l : List Char} (h : ∀ c ∈ l, c.isWhitespace = false) : trimL l = l := by
  unfold trimL
  rw [dropWhile_none h,
    dropWhile_none (fun c hc => h c (List.mem_reverse.mp hc)), List.reverse_reverse]

theorem removeHint_skip :
    ∀ {p rest : List Char}, '<' ∉ p → removeHint (p ++ rest) = p ++ removeHint rest
  | [], rest, _ => rfl
  | c :: p, rest, h => by
    have hc : ¬ c = '<' := fun hce => h (hce ▸ List.mem_cons_self c p)
    have hr : '<' ∉ p := fun hm => h (List.mem_cons_of_mem c hm)
    simp [removeHint, hc, removeHint_skip hr]

theorem stripTypeSuffix_cut :
    ∀ {p t : List Char}, '|' ∉ p → t ≠ [] → (∀ c ∈ t, isNL c = false) →
      stripTypeSuffix (p ++ '|' :: t) = p
  | [], t, _, ht, hnl => by
    have hne : t.isEmpty = false := by
      cases t with
      | nil => exact absurd rfl ht
      | cons a b => rfl
    have hall : t.all (fun x => !isNL x) = true := by
      rw [List.all_eq_true]
      intro x hx
      simp [hnl x hx]
    simp [stripTypeSuffix, hne, hall]
  | c :: p, t, h, ht, hnl => by
    have hc : ¬ c = '|' := fun hce => h (hce ▸ List.mem_cons_self c p)
    have hr : '|' ∉ p := fun hm => h (List.mem_cons_of_mem c hm)
    simp [stripTypeSuffix, hc, stripTypeSuffix_cut hr ht hnl]

/-- C6 (amended): on a well-formed token made of an optional leading
sigil, an alphanumeric name, an angle-bracket hint (which may itself
contain pipes, commas, even stray closing angle brackets) and a pipe type
suffix, cleanArg strips the hint FIRST, then the type suffix, then the
sigil, and trims, returning the bare name.  (Escaped pipes inside
square-bracket groups are only restored at the first occurrence, per the
counterexample.) -/
theorem cleanArg_wellformed (sigL nameL hintL typeL : List Char)
    (hsig : sigL ∈ [([] : List Char), ['!'], ['-'], ['.', '.', '.']])
    (hname1 : nameL ≠ []) (hname2 : ∀ ch ∈ nameL, ch.isAlphanum = true)
    (hhint2 : ∀ ch ∈ hintL, isNL ch = false)
    (htype1 : typeL ≠ []) (htype2 : ∀ ch ∈ typeL, ch.isAlphanum = true) :
    cleanArg ⟨sigL ++ (nameL ++ ('<' :: (hintL ++ ('>' :: ('|' :: typeL)))))⟩ = ⟨nameL⟩ := by
  have hsig' : sigL = [] ∨ sigL = ['!'] ∨ sigL = ['-'] ∨ sigL = ['.', '.', '.'] := by
    simpa using hsig
  have hsig_not : ∀ x : Char, x.isAlphanum = false → x ≠ '!' → x ≠ '-' → x ≠ '.' → x ∉ sigL := by
    intro x hx h1 h2 h3
    rcases hsig' with h | h | h | h <;> subst h <;> simp [h1, h2, h3]
  have hlt_sig : '<' ∉ sigL := hsig_not '<' (by decide) (by decide) (by decide) (by decide)
  have hlt_name : '<' ∉ nameL := not_mem_of_alnum hname2 (by decide)
  have hA : removeHint (sigL ++ (nameL ++ ('<' :: (hintL ++ ('>' :: ('|' :: typeL))))))
      = (sigL ++ nameL) ++ '|' :: typeL := by
    rw [← List.append_assoc]
    rw [removeHint_skip (by simp [List.mem_append, hlt_sig, hlt_name])]
    have hnl_all : ∀ c ∈ hintL ++ ('>' :: ('|' :: typeL)), (!isNL c) = true := by
      intro c hc
      rcases List.mem_append.mp hc with hm | hm
      · simp [hhint2 c hm]
      · rcases List.mem_cons.mp hm with hm | hm
        · subst hm; decide
        · rcases List.mem_cons.mp hm with hm | hm
          · subst hm; decide
          · simp [alnum_not_nl (htype2 c hm)]
    have hgt : '>' ∉ '|' :: typeL := by
      intro hm
      rcases List.mem_cons.mp hm with hm | hm
      · exact absurd hm (by decide)
      · exact not_mem_of_alnum htype2 (by decide) hm
    rw [removeHint]
    simp only [if_pos rfl, takeWhile_all hnl_all, dropWhile_all hnl_all]
    rw [lastSplitOn_append hintL _ hgt]
    simp
  have key : trimL (stripSigil (restoreFirstHash (stripTypeSuffix (escInBrackets
      (removeHint (sigL ++ (nameL ++ ('<' :: (hintL ++ ('>' :: ('|' :: typeL)))))))))))
      = nameL := by
    rw [hA]
    have hbr : '[' ∉ (sigL ++ nameL) ++ '|' :: typeL := by
      intro hm
      rcases List.mem_append.mp hm with hm | hm
      · rcases List.mem_append.mp hm with hm | hm
        · exact hsig_not '[' (by decide) (by decide) (by decide) (by decide) hm
        · exact not_mem_of_alnum hname2 (by decide) hm
      · rcases List.mem_cons.mp hm with hm | hm
        · exact absurd hm (by decide)
        · exact not_mem_of_alnum htype2 (by decide) hm
    rw [escInBrackets_id hbr]
    have hpipe : '|' ∉ sigL ++ nameL := by
      intro hm
      rcases List.mem_append.mp hm with hm | hm
      · exact hsig_not '|' (by decide) (by decide) (by decide) (by decide) hm
      · exact not_mem_of_alnum hname2 (by decide) hm
    rw [stripTypeSuffix_cut hpipe htype1 (fun c hc => alnum_not_nl (htype2 c hc))]
    have hhash : '#' ∉ sigL ++ nameL := by
      intro hm
      rcases List.mem_append.mp hm with hm | hm
      · exact hsig_not '#' (by decide) (by decide) (by decide) (by decide) hm
      · exact not_mem_of_alnum hname2 (by decide) hm
    rw [restoreFirstHash_id hhash]
    have hE : stripSigil (sigL ++ nameL) = nameL := by
      rcases hsig' with h | h | h | h <;> subst h
      · cases nameL with
        | nil => exact absurd rfl hname1
        | cons c cs =>
          have hc := hname2 c (List.mem_cons_self c cs)
          have h1 : c ≠ '!' := alnum_ne hc (by decide)
          have h2 : c ≠ '.' := alnum_ne hc (by decide)
          have h3 : c ≠ '-' := alnum_ne hc (by decide)
          simp [stripSigil, h1, h2, h3]
      · simp [stripSigil]
      · simp [stripSigil]
      · cases nameL with
        | nil => exact absurd rfl hname1
        | cons c cs => simp [stripSigil]
    rw [hE, trimL_id (fun c hc => alnum_not_ws (hname2 c hc))]
  exact congrArg String.mk key

/-- Witness for C6 on a boolean-sigil token whose hint contains a pipe. -/
theorem cleanArg_wellformed_witness :
    cleanArg ⟨['!'] ++ (['n', 'a', 'm', 'e'] ++
        ('<' :: (['a', '|', 'b'] ++ ('>' :: ('|' :: ['n', 'u', 'm'])))))⟩
      = ⟨['n', 'a', 'm', 'e']⟩ :=
  cleanArg_wellformed ['!'] ['n', 'a', 'm', 'e'] ['a', '|', 'b'] ['n', 'u', 'm']
    (by decide) (by decide) (by decide) (by decide) (by decide) (by decide)

/-- C9 counterexample: the shared accumulator keeps the names of earlier
non-matching siblings, so the returned path is not the resolution path
from the root to the first matching node. -/
theorem traverseToCall_counterexample :
    traverseToCall "bb"
        (.cons (Command.mk ⟨"aa", []⟩ .nil) (.cons (Command.mk ⟨"bb", []⟩ .nil) .nil)) =
      some ["aa", "bb"] ∧
    traverseToCall "bb"
        (.cons (Command.mk ⟨"aa", []⟩ .nil) (.cons (Command.mk ⟨"bb", []⟩ .nil) .nil)) ≠
      some ["bb"] := by
  decide

theorem traverseSome_eq (name : String) :
    (cmds : CommandList) → (argv : List String) →
      (∀ l, pathUpTo name cmds = some l → traverseSome name cmds argv = (argv ++ l, true))
      ∧ (pathUpTo name cmds = none → traverseSome name cmds argv = (argv ++ preNames cmds, false))
  | .nil, argv => by
    constructor
    · intro l hl
      exact absurd hl (by simp [pathUpTo])
    · intro _
      simp [traverseSome, preNames]
  | .cons (Command.mk m subs) rest, argv => by
    have ihs := traverseSome_eq name subs (argv ++ [m.name])
    have ihr := traverseSome_eq name rest ((argv ++ [m.name]) ++ preNames subs)
    by_cases hm : matchSubCmd m name
    · constructor
      · intro l hl
        rw [pathUpTo] at hl
        simp only [hm, if_true] at hl
        cases hl
        simp [traverseSome, hm]
      · intro hn
        rw [pathUpTo] at hn
        simp [hm] at hn
    · constructor
      · intro l hl
        rw [pathUpTo] at hl
        simp only [hm, Bool.false_eq_true, if_false] at hl
        rw [traverseSome]
        simp only [hm, Bool.false_eq_true, if_false]
        cases hps : pathUpTo name subs with
        | some ls =>
          simp only [hps] at hl
          cases hl
          rw [ihs.1 ls hps]
          simp [List.append_assoc]
        | none =>
          simp only [hps] at hl
          cases hpr : pathUpTo name rest with
          | some lr =>
            simp only [hpr] at hl
            cases hl
            simp only [ihs.2 hps]
            rw [ihr.1 lr hpr]
            simp [List.append_assoc]
          | none =>
            simp only [hpr] at hl
            exact Option.noConfusion hl
      · intro hn
        rw [pathUpTo] at hn
        simp only [hm, Bool.false_eq_true, if_false] at hn
        rw [traverseSome]
        simp only [hm, Bool.false_eq_true, if_false]
        cases hps : pathUpTo name subs with
        | some ls =>
          simp only [hps] at hn
          exact Option.noConfusion hn
        | none =>
          simp only [hps] at hn
          cases hpr : pathUpTo name rest with
          | some lr =>
            simp only [hpr] at hn
            exact Option.noConfusion hn
          | none =>
            simp only [ihs.2 hps]
            rw [ihr.2 hpr]
            simp [preNames, List.append_assoc]

theorem pathUpTo_none_iff (name : String) :
    (cmds : CommandList) → (pathUpTo name cmds = none ↔ existsMatchF name cmds = false)
  | .nil => by simp [pathUpTo, existsMatchF]
  | .cons (Command.mk m subs) rest => by
    have ihs := pathUpTo_none_iff name subs
    have ihr := pathUpTo_none_iff name rest
    rw [pathUpTo, existsMatchF]
    by_cases hm : matchSubCmd m name
    · simp [hm]
    · simp only [hm, Bool.false_eq_true, if_false, Bool.false_or]
      cases hps : pathUpTo name subs with
      | some ls =>
        have hsub : existsMatchF name subs = true := by
          cases hb : existsMatchF name subs with
          | true => rfl
          | false =>
            have := ihs.mpr hb
            rw [hps] at this
            exact Option.noConfusion this
        simp [hsub]
      | none =>
        have hsub : existsMatchF name subs = false := ihs.mp hps
        cases hpr : pathUpTo name rest with
        | some lr =>
          have hrest : existsMatchF name rest = true := by
            cases hb : existsMatchF name rest with
            | true => rfl
            | false =>
              have := ihr.mpr hb
              rw [hpr] at this
              exact Option.noConfusion this
          simp [hsub, hrest]
        | none =>
          simp [hsub, ihr.mp hpr]

/-- C9 (amended): when no node of the forest matches the token,
traverseToCall reports failure; when some node matches, it returns the
names of ALL nodes visited by the depth-first search, in declaration
order, up to and including the first matching node — the names pushed for
earlier non-matching branches remain in the result, so the answer is the
visited prefix rather than just the root-to-match path.  A node matches
iff the token equals its color-stripped name or one of its color-stripped
aliases. -/
theorem traverseToCall_visited_path (name : String) (cmds : CommandList) :
    (existsMatchF name cmds = false → traverseToCall name cmds = none)
    ∧ (∀ l, pathUpTo name cmds = some l → traverseToCall name cmds = some l) := by
  constructor
  · intro h
    have hp : pathUpTo name cmds = none := (pathUpTo_none_iff name cmds).mpr h
    unfold traverseToCall
    rw [(traverseSome_eq name cmds []).2 hp]
  · intro l hl
    unfold traverseToCall
    rw [(traverseSome_eq name cmds []).1 l hl]
    simp

/-- Witness for C9: a sub-command matched through one of its aliases. -/
theorem traverseToCall_visited_path_witness :
    traverseToCall "ii" (.cons (Command.mk ⟨"install", ["i", "ii"]⟩ .nil) .nil)
      = some ["install"] :=
  (traverseToCall_visited_path "ii"
    (.cons (Command.mk ⟨"install", ["i", "ii"]⟩ .nil) .nil)).2 ["install"] (by decide)

theorem bucket_empty (t : OptionalType) : bucket {} t = [] := by
  cases t <;> rfl

theorem bucket_argsHandle (a : Arg) (o : CmdOptions) (t : OptionalType) :
    bucket (argsHandle a o) t
      = bucket o t ++ (if canonType a.flags = t then [canonVal a.flags] else []) := by
  obtain ⟨fl, hfl⟩ := splitFlag_getLast_exists a.flags
  rw [argsHandle_unfolded a o fl hfl, bucket_update, bucket_bucketSet]
  by_cases ht : t = canonType a.flags
  · subst ht
    simp
  · rw [if_neg ht, if_neg (fun h => ht h.symm)]
    simp

theorem aliases_argsHandle (a : Arg) (o : CmdOptions) :
    (argsHandle a o).aliases = setA o.aliases (canonVal a.flags) (aliasOf a.flags) := by
  obtain ⟨fl, hfl⟩ := splitFlag_getLast_exists a.flags
  rw [argsHandle_unfolded a o fl hfl]

theorem bucket_foldl : ∀ (args : List Arg) (o : CmdOptions) (t : OptionalType),
    bucket (args.foldl (fun o a => argsHandle a o) o) t
      = bucket o t ++ (args.filter (fun a => canonType a.flags = t)).map (fun a => canonVal a.flags)
  | [], o, t => by simp
  | a :: args, o, t => by
    rw [List.foldl_cons, bucket_foldl args (argsHandle a o) t, bucket_argsHandle]
    by_cases hp : canonType a.flags = t
    · simp [List.filter_cons, hp, List.append_assoc]
    · simp [List.filter_cons, hp]

theorem keys_foldl : ∀ (args : List Arg) (o : CmdOptions),
    (o.aliases.map Prod.fst ++ args.map (fun a => canonVal a.flags)).Nodup →
    (args.foldl (fun o a => argsHandle a o) o).aliases.map Prod.fst
      = o.aliases.map Prod.fst ++ args.map (fun a => canonVal a.flags)
  | [], o, _ => by simp
  | a :: args, o, h => by
    have hfresh : canonVal a.flags ∉ o.aliases.map Prod.fst := by
      intro hm
      rcases List.nodup_append.mp h with ⟨_, _, hdisj⟩
      exact hdisj hm (by simp)
    have hkeys : (argsHandle a o).aliases.map Prod.fst
        = o.aliases.map Prod.fst ++ [canonVal a.flags] := by
      rw [aliases_argsHandle]
      exact keys_setA_fresh o.aliases _ _ hfresh
    have h2 : ((argsHandle a o).aliases.map Prod.fst
        ++ args.map (fun a => canonVal a.flags)).Nodup := by
      rw [hkeys]
      rw [List.map_cons, List.append_cons] at h
      exact h
    rw [List.foldl_cons, keys_foldl args (argsHandle a o) h2, hkeys]
    simp

/-- C4 (amended): when the canonical names of the compiled entries are
pairwise distinct, every entry's canonical name lies in exactly one of the
four type buckets, each bucket is duplicate-free (so canonical names are
unique across the schema), and the alias map carries exactly one entry
per canonical name, keyed by the canonical name (not by the aliases). -/
theorem parseCliArgs_schema_invariant (args : List Arg)
    (hnd : (args.map (fun a => canonVal a.flags)).Nodup) :
    (∀ a ∈ args, ∃! t : OptionalType, canonVal a.flags ∈ bucket (parseCliArgs args) t)
    ∧ (∀ t : OptionalType, (bucket (parseCliArgs args) t).Nodup)
    ∧ (parseCliArgs args).aliases.map Prod.fst = args.map (fun a => canonVal a.flags) := by
  have hbchar : ∀ t, bucket (parseCliArgs args) t
      = (args.filter (fun a => canonType a.flags = t)).map (fun a => canonVal a.flags) := by
    intro t
    have hb := bucket_foldl args {} t
    rw [bucket_empty] at hb
    simpa [parseCliArgs] using hb
  refine ⟨?_, ?_, ?_⟩
  · intro a ha
    refine ⟨canonType a.flags, ?_, ?_⟩
    · show canonVal a.flags ∈ bucket (parseCliArgs args) (canonType a.flags)
      rw [hbchar]
      exact List.mem_map.mpr ⟨a, List.mem_filter.mpr ⟨ha, by simp⟩, rfl⟩
    · intro t' ht'
      rw [hbchar] at ht'
      rcases List.mem_map.mp ht' with ⟨b, hb, heq⟩
      rcases List.mem_filter.mp hb with ⟨hbmem, hp⟩
      have hba : b = a := List.inj_on_of_nodup_map hnd hbmem ha heq
      subst hba
      exact (by simpa using hp : canonType b.flags = t').symm
  · intro t
    rw [hbchar]
    exact hnd.sublist ((List.filter_sublist args).map _)
  · have hk := keys_foldl args {} (by simpa using hnd)
    simpa [parseCliArgs] using hk

/-- Witness for C4 on two distinct entries. -/
theorem parseCliArgs_schema_invariant_witness :
    (parseCliArgs [⟨"f,file", "d", none⟩, ⟨"!r", "d", none⟩]).aliases.map Prod.fst
      = ["file", "r"] := by
  have h := (parseCliArgs_schema_invariant [⟨"f,file", "d", none⟩, ⟨"!r", "d", none⟩]
    (by decide)).2.2
  rw [h]
  decide

end Xwcli
